import Mathlib

/-!
Shallow embedding of the guitar synthesizer (guitar-audio-synth/src/lib.rs).

The Rust code works on `f32`; the embedding is generic over a linear ordered
field `K`, with the transcendental functions of the standard library passed in
as explicit parameters: `sinK : K → K` stands for `f32::sin` and
`powf : K → K → K` for `f32::powf` (the code only calls `2.0_f32.powf _`).
Phases are pre-multiplied by `2 * piK`, with `piK` standing for
`std::f32::consts::PI`, exactly as in the source. Instantiating `K := ℚ`
makes every definition evaluable by `decide`.
-/

namespace GuitarSynth

/-- Guitar string frequencies (standard tuning), `OPEN_STRING_FREQUENCIES`. -/
def OPEN_STRING_FREQUENCIES (K : Type) [LinearOrderedField K] : List K :=
  [82.41, 110.00, 146.83, 196.00, 246.94, 329.63]

/-- The `GuitarNote` struct. -/
structure GuitarNote (K : Type) where
  frequency : K
  amplitude : K
  phase : K
  attack_time : K
  release_time : K
  start_time : K
  duration : K
  harmonics : List K
  string_index : ℕ
  deriving Repr, DecidableEq

/-- The `GuitarSynthesizer` struct. -/
structure GuitarSynthesizer (K : Type) where
  sample_rate : K
  current_time : K
  active_notes : List (GuitarNote K)
  pluck_strength : K
  string_damping : K
  deriving Repr, DecidableEq

variable {K : Type} [LinearOrderedField K]

/-- Rust `GuitarSynthesizer::new`. -/
def new (sample_rate : K) : GuitarSynthesizer K :=
  { sample_rate := sample_rate
    current_time := 0
    active_notes := []
    pluck_strength := 0.8
    string_damping := 0.995 }

/-- Rust `GuitarSynthesizer::calculate_frequency`: guard against out-of-range
string index or negative fret, then `base_freq * 2.0f32.powf(fret / 12.0)`. -/
def calculate_frequency (powf : K → K → K) (string_index : ℕ) (fret : ℤ) : K :=
  if 6 ≤ string_index ∨ fret < 0 then 0
  else (OPEN_STRING_FREQUENCIES K).getD string_index 0 * powf 2 ((fret : K) / 12)

/-- Rust `GuitarSynthesizer::generate_harmonics`: fixed six harmonic amplitudes,
independent of the fundamental. -/
def generate_harmonics (_fundamental : K) : List K :=
  [0.5, 0.3, 0.2, 0.15, 0.1, 0.05]

/-- The `GuitarNote` literal built identically in `play_note` and
`play_chord`. -/
def makeNote (powf : K → K → K) (s : GuitarSynthesizer K) (string_index : ℕ)
    (fret : ℤ) : GuitarNote K :=
  let frequency := calculate_frequency powf string_index fret
  { frequency := frequency
    amplitude := s.pluck_strength
    phase := 0
    attack_time := 0.001
    release_time := 2.0
    start_time := s.current_time
    duration := 3.0
    harmonics := generate_harmonics frequency
    string_index := string_index }

/-- Rust `GuitarSynthesizer::play_note`: remove any existing note on the same
string (`retain`), then push the new note. -/
def play_note (powf : K → K → K) (s : GuitarSynthesizer K) (string_index : ℕ)
    (fret : ℤ) : GuitarSynthesizer K :=
  { s with active_notes :=
      s.active_notes.filter (fun n => decide (n.string_index ≠ string_index))
        ++ [makeNote powf s string_index fret] }

/-- The loop body of `play_chord`: iterate over `fret_positions` with
`enumerate`, pushing a note for each non-negative fret. -/
def chordNotes (powf : K → K → K) (s : GuitarSynthesizer K) :
    ℕ → List ℤ → List (GuitarNote K)
  | _, [] => []
  | string_index, fret :: rest =>
      if 0 ≤ fret then
        makeNote powf s string_index fret :: chordNotes powf s (string_index + 1) rest
      else
        chordNotes powf s (string_index + 1) rest

/-- Rust `GuitarSynthesizer::play_chord`: clear `active_notes`, then push a note
for every enumerated position with `fret >= 0`. -/
def play_chord (powf : K → K → K) (s : GuitarSynthesizer K)
    (fret_positions : List ℤ) : GuitarSynthesizer K :=
  { s with active_notes := chordNotes powf s 0 fret_positions }

/-- Rust `GuitarSynthesizer::stop_all`. -/
def stop_all (s : GuitarSynthesizer K) : GuitarSynthesizer K :=
  { s with active_notes := [] }

/-- Rust `GuitarSynthesizer::set_pluck_strength` (`clamp(0.0, 1.0)`). -/
def set_pluck_strength (s : GuitarSynthesizer K) (strength : K) :
    GuitarSynthesizer K :=
  { s with pluck_strength :=
      if strength < 0 then 0 else if 1 < strength then 1 else strength }

/-- Rust `GuitarSynthesizer::set_string_damping` (`clamp(0.9, 0.999)`). -/
def set_string_damping (s : GuitarSynthesizer K) (damping : K) :
    GuitarSynthesizer K :=
  { s with string_damping :=
      if damping < 0.9 then 0.9 else if 0.999 < damping then 0.999 else damping }

/-- Rust `GuitarSynthesizer::calculate_envelope`: linear attack, sustain, linear
release (`1.0 - (release_elapsed / release).min(1.0)`). -/
def calculate_envelope (elapsed attack release duration : K) : K :=
  if elapsed < attack then elapsed / attack
  else if elapsed < duration - release then 1
  else 1 - min ((elapsed - (duration - release)) / release) 1

/-- Rust `GuitarSynthesizer::soft_clip`. -/
def soft_clip (x : K) : K :=
  if 1 < x then 2 / 3
  else if x < -1 then -(2 / 3)
  else x - x * x * x / 3

/-- The harmonics loop inside `process`: for each enumerated weight,
`signal += ((phase * (h + 2)) * 2.0 * PI).sin() * harmonic_amp * amplitude`. -/
def harmonicsSum (sinK : K → K) (piK phase amplitude : K) :
    ℕ → List K → K
  | _, [] => 0
  | harmonic_index, harmonic_amp :: rest =>
      sinK (phase * ((harmonic_index + 2 : ℕ) : K) * 2 * piK) * harmonic_amp * amplitude
        + harmonicsSum sinK piK phase amplitude (harmonic_index + 1) rest

/-- One note's addition to `output` inside `process`: fundamental plus
harmonics, then `signal *= envelope * amplitude`. -/
def noteContribution (sinK : K → K) (piK current_time : K) (n : GuitarNote K) : K :=
  let elapsed := current_time - n.start_time
  let envelope := calculate_envelope elapsed n.attack_time n.release_time n.duration
  let signal := sinK (n.phase * 2 * piK) * n.amplitude
    + harmonicsSum sinK piK n.phase n.amplitude 0 n.harmonics
  signal * (envelope * n.amplitude)

/-- The per-note state update inside `process`: advance the phase by
`frequency / sample_rate` with a single conditional wrap, then apply
string damping to the amplitude. -/
def updateNote (sample_rate string_damping : K) (n : GuitarNote K) : GuitarNote K :=
  let phase1 := n.phase + n.frequency / sample_rate
  { n with
      phase := if 1 < phase1 then phase1 - 1 else phase1
      amplitude := n.amplitude * string_damping }

/-- The `while i < self.active_notes.len()` loop of `process` for one sample:
notes whose elapsed time exceeds their duration are removed (`remove` +
`continue`); every other note adds its contribution to the output and is
updated in place. Returns the accumulated output and the surviving notes. -/
def processNotes (sinK : K → K) (piK current_time sample_rate string_damping : K) :
    List (GuitarNote K) → K × List (GuitarNote K)
  | [] => (0, [])
  | n :: rest =>
      if n.duration < current_time - n.start_time then
        processNotes sinK piK current_time sample_rate string_damping rest
      else
        let r := processNotes sinK piK current_time sample_rate string_damping rest
        (noteContribution sinK piK current_time n + r.1,
          updateNote sample_rate string_damping n :: r.2)

/-- One iteration of the outer loop of `process`: compute one output sample
(`soft_clip(output * 0.3)`) and advance `current_time` by
`1.0 / sample_rate`. -/
def processSample (sinK : K → K) (piK : K) (s : GuitarSynthesizer K) :
    K × GuitarSynthesizer K :=
  let r := processNotes sinK piK s.current_time s.sample_rate s.string_damping
    s.active_notes
  (soft_clip (r.1 * 0.3),
    { s with
        active_notes := r.2
        current_time := s.current_time + 1 / s.sample_rate })

/-- Rust `GuitarSynthesizer::process` on a buffer of the given length: the buffer
is overwritten sample by sample, so it is modelled as the produced list of
samples together with the final synthesizer state. -/
def process (sinK : K → K) (piK : K) :
    GuitarSynthesizer K → ℕ → List K × GuitarSynthesizer K
  | s, 0 => ([], s)
  | s, n + 1 =>
      let r := processSample sinK piK s
      let rest := process sinK piK r.2 n
      (r.1 :: rest.1, rest.2)

/-- The public operations of the synthesizer (the `GuitarAudioProcessor`
facade delegates to these one-to-one). -/
inductive Op (K : Type) where
  | playNote (string_index : ℕ) (fret : ℤ)
  | playChord (fret_positions : List ℤ)
  | stopAll
  | render (buffer_len : ℕ)
  | setPluckStrength (v : K)
  | setStringDamping (v : K)

/-- Apply one public operation to the synthesizer state. -/
def applyOp (powf : K → K → K) (sinK : K → K) (piK : K)
    (s : GuitarSynthesizer K) : Op K → GuitarSynthesizer K
  | .playNote si fret => play_note powf s si fret
  | .playChord frets => play_chord powf s frets
  | .stopAll => stop_all s
  | .render n => (process sinK piK s n).2
  | .setPluckStrength v => set_pluck_strength s v
  | .setStringDamping v => set_string_damping s v

/-- Apply a sequence of public operations in order. -/
def applyOps (powf : K → K → K) (sinK : K → K) (piK : K)
    (s : GuitarSynthesizer K) (ops : List (Op K)) : GuitarSynthesizer K :=
  ops.foldl (applyOp powf sinK piK) s

/-- At most one active note per string index. -/
def stringsNodup (s : GuitarSynthesizer K) : Prop :=
  (s.active_notes.map GuitarNote.string_index).Nodup

/-- The notes that survive the expiry check of one sample. -/
def liveFilter (current_time : K) (notes : List (GuitarNote K)) :
    List (GuitarNote K) :=
  notes.filter (fun n => decide (current_time - n.start_time ≤ n.duration))

/-- Sum of per-note contributions over a list of notes. -/
def sumContributions (sinK : K → K) (piK current_time : K)
    (notes : List (GuitarNote K)) : K :=
  notes.foldr (fun n acc => noteContribution sinK piK current_time n + acc) 0

/-- The fixed harmonic weights named by the specification. -/
def specWeights (K : Type) [LinearOrderedField K] : List K :=
  [0.5, 0.3, 0.2, 0.15, 0.1, 0.05]

/-- A note's contribution as the specification writes it:
`(sin(2π·phase)·amplitude + Σ over h=0..5 of sin(2π·phase·(h+2))·w_h·amplitude)
× envelope × amplitude`. -/
def specContribution (sinK : K → K) (piK current_time : K) (n : GuitarNote K) : K :=
  (sinK (2 * piK * n.phase) * n.amplitude
      + (List.range 6).foldr
          (fun (h : ℕ) (acc : K) =>
            sinK (2 * piK * n.phase * ((h : K) + 2)) * (specWeights K).getD h 0
              * n.amplitude + acc)
          0)
    * calculate_envelope (current_time - n.start_time) n.attack_time
        n.release_time n.duration
    * n.amplitude

/-- Sum of spec-side contributions over a list of notes. -/
def sumSpecContributions (sinK : K → K) (piK current_time : K)
    (notes : List (GuitarNote K)) : K :=
  notes.foldr (fun n acc => specContribution sinK piK current_time n + acc) 0

/-! ## Helper lemmas -/

lemma processNotes_eq (sinK : K → K) (piK ct sr d : K) (l : List (GuitarNote K)) :
    processNotes sinK piK ct sr d l
      = (sumContributions sinK piK ct (liveFilter ct l),
         (liveFilter ct l).map (updateNote sr d)) := by
  induction l with
  | nil => rfl
  | cons n rest ih =>
      rw [processNotes]
      by_cases h : n.duration < ct - n.start_time
      · have h2 : decide (ct - n.start_time ≤ n.duration) = false :=
          decide_eq_false (not_le.mpr h)
        have hf : liveFilter ct (n :: rest) = liveFilter ct rest := by
          unfold liveFilter
          rw [List.filter_cons, h2]
          simp
        rw [if_pos h, ih, hf]
      · have h2 : decide (ct - n.start_time ≤ n.duration) = true :=
          decide_eq_true (not_lt.mp h)
        have hf : liveFilter ct (n :: rest) = n :: liveFilter ct rest := by
          unfold liveFilter
          rw [List.filter_cons, h2]
          simp
        rw [if_neg h, ih, hf]
        rfl

lemma processSample_active (sinK : K → K) (piK : K) (s : GuitarSynthesizer K) :
    (processSample sinK piK s).2.active_notes
      = (liveFilter s.current_time s.active_notes).map
          (updateNote s.sample_rate s.string_damping) := by
  simp [processSample, processNotes_eq]

lemma processSample_fst (sinK : K → K) (piK : K) (s : GuitarSynthesizer K) :
    (processSample sinK piK s).1
      = soft_clip (sumContributions sinK piK s.current_time
          (liveFilter s.current_time s.active_notes) * 0.3) := by
  simp [processSample, processNotes_eq]

lemma processSample_fields (sinK : K → K) (piK : K) (s : GuitarSynthesizer K) :
    (processSample sinK piK s).2.sample_rate = s.sample_rate ∧
    (processSample sinK piK s).2.string_damping = s.string_damping ∧
    (processSample sinK piK s).2.pluck_strength = s.pluck_strength ∧
    (processSample sinK piK s).2.current_time
      = s.current_time + 1 / s.sample_rate := by
  refine ⟨rfl, rfl, rfl, rfl⟩

lemma updateNote_fields (sr d : K) (n : GuitarNote K) :
    (updateNote sr d n).string_index = n.string_index ∧
    (updateNote sr d n).frequency = n.frequency ∧
    (updateNote sr d n).start_time = n.start_time ∧
    (updateNote sr d n).duration = n.duration ∧
    (updateNote sr d n).amplitude = n.amplitude * d := by
  refine ⟨rfl, rfl, rfl, rfl, rfl⟩

lemma process_snd_succ (sinK : K → K) (piK : K) (s : GuitarSynthesizer K) (k : ℕ) :
    (process sinK piK s (k + 1)).2
      = (process sinK piK (processSample sinK piK s).2 k).2 := rfl

lemma mem_liveFilter {ct : K} {l : List (GuitarNote K)} {n : GuitarNote K}
    (h : n ∈ liveFilter ct l) : n ∈ l ∧ ct - n.start_time ≤ n.duration := by
  have := List.mem_filter.mp h
  exact ⟨this.1, by simpa using this.2⟩

lemma chordNotes_index_bounds (powf : K → K → K) (s : GuitarSynthesizer K) :
    ∀ (frets : List ℤ) (i : ℕ),
      (∀ n ∈ chordNotes powf s i frets,
        i ≤ n.string_index ∧ n.string_index < i + frets.length) ∧
      ((chordNotes powf s i frets).map GuitarNote.string_index).Nodup := by
  intro frets
  induction frets with
  | nil =>
      intro i
      refine ⟨?_, ?_⟩
      · intro n hn
        simp [chordNotes] at hn
      · simp [chordNotes]
  | cons fret rest ih =>
      intro i
      by_cases hf : 0 ≤ fret
      · refine ⟨?_, ?_⟩
        · intro n hn
          rw [chordNotes, if_pos hf] at hn
          rcases List.mem_cons.mp hn with h | h
          · subst h
            simp [makeNote]
          · have hb := (ih (i + 1)).1 n h
            simp only [List.length_cons]
            omega
        · rw [chordNotes, if_pos hf, List.map_cons, List.nodup_cons]
          refine ⟨?_, (ih (i + 1)).2⟩
          intro hmem
          obtain ⟨m, hm, hidx⟩ := List.mem_map.mp hmem
          have hb := (ih (i + 1)).1 m hm
          simp [makeNote] at hidx
          omega
      · refine ⟨?_, ?_⟩
        · intro n hn
          rw [chordNotes, if_neg hf] at hn
          have hb := (ih (i + 1)).1 n hn
          simp only [List.length_cons]
          omega
        · rw [chordNotes, if_neg hf]
          exact (ih (i + 1)).2

lemma stringsNodup_play_note (powf : K → K → K) (s : GuitarSynthesizer K)
    (si : ℕ) (fret : ℤ) (h : stringsNodup s) :
    stringsNodup (play_note powf s si fret) := by
  unfold stringsNodup at h ⊢
  unfold play_note
  rw [List.map_append, List.nodup_append]
  refine ⟨?_, ?_, ?_⟩
  · exact ((List.filter_sublist _).map _).nodup h
  · simp
  · intro a ha hb
    simp [makeNote] at hb
    obtain ⟨m, hm, rfl⟩ := List.mem_map.mp ha
    have := (List.mem_filter.mp hm).2
    simp at this
    exact this hb

lemma stringsNodup_processSample (sinK : K → K) (piK : K)
    (s : GuitarSynthesizer K) (h : stringsNodup s) :
    stringsNodup (processSample sinK piK s).2 := by
  unfold stringsNodup at h ⊢
  rw [processSample_active, List.map_map]
  have hc : GuitarNote.string_index ∘ updateNote s.sample_rate s.string_damping
      = GuitarNote.string_index := funext fun n => rfl
  rw [hc]
  exact ((List.filter_sublist _).map _).nodup h

lemma stringsNodup_process (sinK : K → K) (piK : K) (k : ℕ) :
    ∀ s : GuitarSynthesizer K, stringsNodup s →
      stringsNodup (process sinK piK s k).2 := by
  induction k with
  | zero => intro s h; exact h
  | succ m ih =>
      intro s h
      rw [process_snd_succ]
      exact ih _ (stringsNodup_processSample sinK piK s h)

lemma stringsNodup_applyOp (powf : K → K → K) (sinK : K → K) (piK : K)
    (s : GuitarSynthesizer K) (h : stringsNodup s) (op : Op K) :
    stringsNodup (applyOp powf sinK piK s op) := by
  cases op with
  | playNote si fret => exact stringsNodup_play_note powf s si fret h
  | playChord frets => exact (chordNotes_index_bounds powf s frets 0).2
  | stopAll => simp [applyOp, stringsNodup, stop_all]
  | render n => exact stringsNodup_process sinK piK n s h
  | setPluckStrength v => exact h
  | setStringDamping v => exact h

lemma stringsNodup_applyOps (powf : K → K → K) (sinK : K → K) (piK : K) :
    ∀ (ops : List (Op K)) (s : GuitarSynthesizer K), stringsNodup s →
      stringsNodup (applyOps powf sinK piK s ops) := by
  intro ops
  induction ops with
  | nil => intro s h; exact h
  | cons op rest ih =>
      intro s h
      exact ih _ (stringsNodup_applyOp powf sinK piK s h op)

lemma calculate_frequency_degenerate (powf : K → K → K) (si : ℕ) (fret : ℤ)
    (h : 6 ≤ si ∨ fret < 0) : calculate_frequency powf si fret = 0 := by
  unfold calculate_frequency
  rw [if_pos h]

lemma mem_chordNotes (powf : K → K → K) (s : GuitarSynthesizer K) :
    ∀ (frets : List ℤ) (i : ℕ) (n : GuitarNote K),
      n ∈ chordNotes powf s i frets ↔
        ∃ j f, frets.get? j = some f ∧ 0 ≤ f ∧ n = makeNote powf s (i + j) f := by
  intro frets
  induction frets with
  | nil =>
      intro i n
      simp [chordNotes]
  | cons fret rest ih =>
      intro i n
      by_cases hf : 0 ≤ fret
      · rw [chordNotes, if_pos hf]
        constructor
        · intro hn
          rcases List.mem_cons.mp hn with h | h
          · refine ⟨0, fret, rfl, hf, ?_⟩
            rw [h]
            exact congrArg (fun t => makeNote powf s t fret) (by omega)
          · obtain ⟨j, f, hg, hf2, he⟩ := (ih (i + 1) n).mp h
            refine ⟨j + 1, f, hg, hf2, ?_⟩
            rw [he]
            exact congrArg (fun t => makeNote powf s t f) (by omega)
        · rintro ⟨j, f, hg, hf2, he⟩
          cases j with
          | zero =>
              obtain rfl : fret = f := Option.some.inj hg
              rw [he]
              exact List.mem_cons_self _ _
          | succ j =>
              apply List.mem_cons_of_mem
              refine (ih (i + 1) n).mpr ⟨j, f, hg, hf2, ?_⟩
              rw [he]
              exact congrArg (fun t => makeNote powf s t f) (by omega)
      · rw [chordNotes, if_neg hf, ih (i + 1) n]
        constructor
        · rintro ⟨j, f, hg, hf2, he⟩
          refine ⟨j + 1, f, hg, hf2, ?_⟩
          rw [he]
          exact congrArg (fun t => makeNote powf s t f) (by omega)
        · rintro ⟨j, f, hg, hf2, he⟩
          cases j with
          | zero =>
              obtain rfl : fret = f := Option.some.inj hg
              exact absurd hf2 hf
          | succ j =>
              refine ⟨j, f, hg, hf2, ?_⟩
              rw [he]
              exact congrArg (fun t => makeNote powf s t f) (by omega)

lemma chordNotes_length (powf : K → K → K) (s : GuitarSynthesizer K) :
    ∀ (frets : List ℤ) (i : ℕ),
      (chordNotes powf s i frets).length
        = (frets.filter (fun f => decide (0 ≤ f))).length := by
  intro frets
  induction frets with
  | nil => intro i; rfl
  | cons fret rest ih =>
      intro i
      by_cases hf : 0 ≤ fret
      · rw [chordNotes, if_pos hf, List.length_cons, ih (i + 1), List.filter_cons]
        simp [hf]
      · rw [chordNotes, if_neg hf, ih (i + 1), List.filter_cons]
        simp [hf]

lemma chordNotes_state_eq (powf : K → K → K) (s₁ s₂ : GuitarSynthesizer K)
    (hp : s₁.pluck_strength = s₂.pluck_strength)
    (ht : s₁.current_time = s₂.current_time) :
    ∀ (frets : List ℤ) (i : ℕ),
      chordNotes powf s₁ i frets = chordNotes powf s₂ i frets := by
  intro frets
  induction frets with
  | nil => intro i; rfl
  | cons fret rest ih =>
      intro i
      by_cases hf : 0 ≤ fret
      · rw [chordNotes, chordNotes, if_pos hf, if_pos hf, ih (i + 1)]
        have hm : makeNote powf s₁ i fret = makeNote powf s₂ i fret := by
          simp [makeNote, hp, ht]
        rw [hm]
      · rw [chordNotes, chordNotes, if_neg hf, if_neg hf]
        exact ih (i + 1)

lemma harmonicsSum_phase_zero (sinK : K → K) (piK a : K) (hsin : sinK 0 = 0) :
    ∀ (idx : ℕ) (l : List K), harmonicsSum sinK piK 0 a idx l = 0 := by
  intro idx l
  induction l generalizing idx with
  | nil => rfl
  | cons w rest ih =>
      rw [harmonicsSum,
        show (0 : K) * ((idx + 2 : ℕ) : K) * 2 * piK = 0 by ring, hsin, ih]
      ring

lemma noteContribution_silent (sinK : K → K) (piK ct : K) (n : GuitarNote K)
    (hphase : n.phase = 0) (hsin : sinK 0 = 0) :
    noteContribution sinK piK ct n = 0 := by
  simp only [noteContribution]
  rw [hphase, harmonicsSum_phase_zero sinK piK _ hsin,
    show (0 : K) * 2 * piK = 0 by ring, hsin]
  ring

lemma updateNote_silent (sr d : K) (n : GuitarNote K) (hf : n.frequency = 0)
    (hp : n.phase = 0) :
    (updateNote sr d n).frequency = 0 ∧ (updateNote sr d n).phase = 0 := by
  refine ⟨hf, ?_⟩
  show (if 1 < n.phase + n.frequency / sr then n.phase + n.frequency / sr - 1
      else n.phase + n.frequency / sr) = 0
  rw [hf, hp]
  norm_num

lemma process_preserves_silent (sinK : K → K) (piK : K) (si : ℕ) :
    ∀ (k : ℕ) (s : GuitarSynthesizer K),
      (∀ m ∈ s.active_notes, m.string_index = si →
        m.frequency = 0 ∧ m.phase = 0) →
      ∀ n ∈ (process sinK piK s k).2.active_notes, n.string_index = si →
        n.frequency = 0 ∧ n.phase = 0 := by
  intro k
  induction k with
  | zero => intro s h n hn hsi; exact h n hn hsi
  | succ m ih =>
      intro s h n hn hsi
      rw [process_snd_succ] at hn
      refine ih _ ?_ n hn hsi
      intro m' hm' hsi'
      rw [processSample_active] at hm'
      obtain ⟨m₀, hm₀, rfl⟩ := List.mem_map.mp hm'
      have h0 := h m₀ (mem_liveFilter hm₀).1 hsi'
      exact updateNote_silent _ _ _ h0.1 h0.2

lemma updateNote_phase_bounds (sr d : K) (n : GuitarNote K) (hsr : 0 < sr)
    (hp0 : 0 ≤ n.phase) (hp1 : n.phase ≤ 1) (hf0 : 0 ≤ n.frequency)
    (hf1 : n.frequency ≤ sr) :
    0 ≤ (updateNote sr d n).phase ∧ (updateNote sr d n).phase ≤ 1 := by
  have hq0 : 0 ≤ n.frequency / sr := div_nonneg hf0 (le_of_lt hsr)
  have hq1 : n.frequency / sr ≤ 1 := (div_le_one hsr).mpr hf1
  constructor
  · show 0 ≤ (if 1 < n.phase + n.frequency / sr
        then n.phase + n.frequency / sr - 1 else n.phase + n.frequency / sr)
    split_ifs with hgt
    · linarith
    · linarith
  · show (if 1 < n.phase + n.frequency / sr
        then n.phase + n.frequency / sr - 1 else n.phase + n.frequency / sr) ≤ 1
    split_ifs with hgt
    · linarith
    · linarith

/-! ## Claims -/

/-- C9: `soft_clip` returns `2/3` for inputs `x > 1`, `-2/3` for `x < -1`, and
`x - x³/3` for `-1 ≤ x ≤ 1`; hence every output lies within `[-2/3, 2/3]`, and
the pieces agree (value `2/3` in magnitude) at the boundaries `x = ±1`. -/
theorem claim9_soft_clip (x : K) :
    (1 < x → soft_clip x = 2 / 3) ∧
    (x < -1 → soft_clip x = -(2 / 3)) ∧
    (-1 ≤ x → x ≤ 1 → soft_clip x = x - x * x * x / 3) ∧
    (-(2 / 3) ≤ soft_clip x ∧ soft_clip x ≤ 2 / 3) ∧
    soft_clip (1 : K) = 2 / 3 ∧ soft_clip (-1 : K) = -(2 / 3) := by
  have hone : soft_clip (1 : K) = 2 / 3 := by
    unfold soft_clip
    rw [if_neg (lt_irrefl 1), if_neg (by norm_num)]
    norm_num
  have hmone : soft_clip (-1 : K) = -(2 / 3) := by
    unfold soft_clip
    rw [if_neg (by norm_num), if_neg (lt_irrefl (-1))]
    norm_num
  refine ⟨?_, ?_, ?_, ?_, hone, hmone⟩
  · intro h
    unfold soft_clip
    rw [if_pos h]
  · intro h
    unfold soft_clip
    rw [if_neg (by linarith), if_pos h]
  · intro h1 h2
    unfold soft_clip
    rw [if_neg (not_lt.mpr h2), if_neg (not_lt.mpr h1)]
  · unfold soft_clip
    by_cases hgt : 1 < x
    · rw [if_pos hgt]
      constructor <;> norm_num
    · rw [if_neg hgt]
      by_cases hlt : x < -1
      · rw [if_pos hlt]
        constructor <;> norm_num
      · rw [if_neg hlt]
        have h1 : x ≤ 1 := not_lt.mp hgt
        have h2 : -1 ≤ x := not_lt.mp hlt
        constructor
        · nlinarith [sq_nonneg (x + 1), sq_nonneg (x - 1)]
        · nlinarith [sq_nonneg (x + 1), sq_nonneg (x - 1)]

/-- Witness for C9 at `x = 2` over `ℚ`. -/
theorem claim9_witness : soft_clip (2 : ℚ) = 2 / 3 :=
  (claim9_soft_clip (2 : ℚ)).1 (by norm_num)

/-- C6: at any sample, a note whose elapsed time exceeds its 3.0 s duration is
removed before any contribution is computed: after the sample every remaining
note satisfies `elapsed ≤ duration`, the surviving collection is exactly the
non-expired notes (updated in place), and the emitted sample is computed from
the non-expired notes only. -/
theorem claim6_expired_removed (sinK : K → K) (piK : K) (s : GuitarSynthesizer K) :
    (∀ n ∈ (processSample sinK piK s).2.active_notes,
        s.current_time - n.start_time ≤ n.duration) ∧
    (processSample sinK piK s).2.active_notes
      = (liveFilter s.current_time s.active_notes).map
          (updateNote s.sample_rate s.string_damping) ∧
    (processSample sinK piK s).1
      = soft_clip (sumContributions sinK piK s.current_time
          (liveFilter s.current_time s.active_notes) * 0.3) := by
  refine ⟨?_, processSample_active sinK piK s, processSample_fst sinK piK s⟩
  intro n hn
  rw [processSample_active] at hn
  obtain ⟨m, hm, rfl⟩ := List.mem_map.mp hn
  have hlive := (mem_liveFilter hm).2
  simpa [updateNote] using hlive

/-- Witness for C6: a synthesizer over `ℚ` holding one fresh note and one
already-expired note; after one sample only the fresh note remains. -/
theorem claim6_witness :
    ∀ n ∈ (processSample (fun _ => (0 : ℚ)) 0
        { sample_rate := 1, current_time := 10, active_notes :=
            [{ frequency := 0, amplitude := 1, phase := 0, attack_time := 0.001,
               release_time := 2, start_time := 10, duration := 3,
               harmonics := [], string_index := 0 },
             { frequency := 0, amplitude := 1, phase := 0, attack_time := 0.001,
               release_time := 2, start_time := 0, duration := 3,
               harmonics := [], string_index := 1 }],
          pluck_strength := 0.8, string_damping := 0.995 }).2.active_notes,
      (10 : ℚ) - n.start_time ≤ n.duration :=
  (claim6_expired_removed (fun _ => (0 : ℚ)) 0 _).1

/-- C2: after every sequence of public operations starting from a fresh
synthesizer, at most one active note exists per string index; and `play_note`
on a string that already sounds removes the existing note and replaces it:
the notes on that string are afterwards exactly the one new note. -/
theorem claim2_one_note_per_string (powf : K → K → K) (sinK : K → K)
    (piK sample_rate : K) (ops : List (Op K)) :
    stringsNodup (applyOps powf sinK piK (new sample_rate) ops) ∧
    ∀ (s : GuitarSynthesizer K) (si : ℕ) (fret : ℤ),
      (play_note powf s si fret).active_notes.filter
          (fun n => decide (n.string_index = si))
        = [makeNote powf s si fret] := by
  constructor
  · apply stringsNodup_applyOps
    simp [stringsNodup, new]
  · intro s si fret
    unfold play_note
    rw [List.filter_append]
    have h1 : (s.active_notes.filter
        (fun n => decide (n.string_index ≠ si))).filter
          (fun n => decide (n.string_index = si)) = [] := by
      apply List.filter_eq_nil_iff.mpr
      intro a ha
      have := (List.mem_filter.mp ha).2
      simp at this ⊢
      exact this
    have h2 : ([makeNote powf s si fret].filter
        (fun n => decide (n.string_index = si))) = [makeNote powf s si fret] := by
      rw [List.filter_cons]
      simp [makeNote]
    rw [h1, h2]
    rfl

/-- Witness for C2: trigger string 0 twice, then render; over `ℚ`. -/
theorem claim2_witness :
    stringsNodup (applyOps (fun _ _ => (0 : ℚ)) (fun _ => 0) 0 (new 44100)
      [Op.playNote 0 0, Op.playNote 0 5, Op.render 2]) :=
  (claim2_one_note_per_string (fun _ _ => (0 : ℚ)) (fun _ => 0) 0 44100
    [Op.playNote 0 0, Op.playNote 0 5, Op.render 2]).1

/-- C3 as stated is false: `play_note` with string index 6 inserts a note with
string index 6 into the collection (neither clamped nor ignored). -/
theorem claim3_counterexample :
    ¬ (∀ n ∈ (play_note (fun _ _ => (0 : ℚ)) (new 44100) 6 0).active_notes,
        n.string_index ≤ 5) := by decide

/-- C3 amended: notes inserted by `play_chord` (given at most six positions)
always have string index in `[0,5]`; but `play_note` does not clamp or ignore
an out-of-range string index — it inserts a note carrying that index, which
however has frequency 0 (so it renders as silence) and leaves the notes on
valid strings untouched. -/
theorem claim3_amended_range (powf : K → K → K) (s : GuitarSynthesizer K) :
    (∀ frets : List ℤ, frets.length ≤ 6 →
      ∀ n ∈ (play_chord powf s frets).active_notes, n.string_index ≤ 5) ∧
    (∀ (si : ℕ) (fret : ℤ), 6 ≤ si →
      (∀ m ∈ s.active_notes, m.string_index ≤ 5) →
      (play_note powf s si fret).active_notes
          = s.active_notes ++ [makeNote powf s si fret] ∧
      (makeNote powf s si fret).string_index = si ∧
      (makeNote powf s si fret).frequency = 0) := by
  constructor
  · intro frets hlen n hn
    have hb := (chordNotes_index_bounds powf s frets 0).1 n hn
    omega
  · intro si fret hsi hall
    refine ⟨?_, rfl, ?_⟩
    · unfold play_note
      have hfilter : s.active_notes.filter
          (fun n => decide (n.string_index ≠ si)) = s.active_notes := by
        apply List.filter_eq_self.mpr
        intro m hm
        have := hall m hm
        simp only [decide_eq_true_eq]
        omega
      rw [hfilter]
    · simpa [makeNote] using calculate_frequency_degenerate powf si fret (Or.inl hsi)

/-- Witness for C3 (amended): `play_note` at string index 6 on a `ℚ`
synthesizer holding one note on string 0 appends the degenerate note and
leaves the existing note untouched. -/
theorem claim3_witness :
    (play_note (fun _ _ => (0 : ℚ))
        (GuitarSynthesizer.mk (1 : ℚ) 0
          [GuitarNote.mk 0 1 0 1 1 0 3 [] 0] 1 1) 6 0).active_notes
        = (GuitarSynthesizer.mk (1 : ℚ) 0
            [GuitarNote.mk 0 1 0 1 1 0 3 [] 0] 1 1).active_notes
          ++ [makeNote (fun _ _ => (0 : ℚ))
            (GuitarSynthesizer.mk (1 : ℚ) 0
              [GuitarNote.mk 0 1 0 1 1 0 3 [] 0] 1 1) 6 0] ∧
    (makeNote (fun _ _ => (0 : ℚ))
        (GuitarSynthesizer.mk (1 : ℚ) 0
          [GuitarNote.mk 0 1 0 1 1 0 3 [] 0] 1 1) 6 0).string_index = 6 ∧
    (makeNote (fun _ _ => (0 : ℚ))
        (GuitarSynthesizer.mk (1 : ℚ) 0
          [GuitarNote.mk 0 1 0 1 1 0 3 [] 0] 1 1) 6 0).frequency = 0 :=
  (claim3_amended_range (fun _ _ => (0 : ℚ))
    (GuitarSynthesizer.mk (1 : ℚ) 0 [GuitarNote.mk 0 1 0 1 1 0 3 [] 0] 1 1)).2
    6 0 (by norm_num)
    (by
      intro m hm
      rw [List.mem_singleton] at hm
      subst hm
      norm_num)

/-- C4: `play_chord` clears the collection (its result does not depend on the
previous notes) and inserts exactly one note, built as in `play_note`, per
position with fret ≥ 0, skipping negative positions; in particular
`play_chord [0,-1,-1,-1,-1,-1]` leaves exactly the single note of string 0. -/
theorem claim4_play_chord (powf : K → K → K) (s : GuitarSynthesizer K)
    (frets : List ℤ) :
    play_chord powf s frets = play_chord powf (stop_all s) frets ∧
    (∀ n ∈ (play_chord powf s frets).active_notes,
      ∃ j f, frets.get? j = some f ∧ 0 ≤ f ∧ n = makeNote powf s j f) ∧
    (∀ (j : ℕ) (f : ℤ), frets.get? j = some f → 0 ≤ f →
      makeNote powf s j f ∈ (play_chord powf s frets).active_notes) ∧
    (play_chord powf s frets).active_notes.length
      = (frets.filter (fun f => decide (0 ≤ f))).length ∧
    (play_chord powf s [0, -1, -1, -1, -1, -1]).active_notes
      = [makeNote powf s 0 0] := by
  refine ⟨?_, ?_, ?_, ?_, ?_⟩
  · cases s with
  | mk sr ct an ps sd =>
      unfold play_chord stop_all
      simp only
      rw [chordNotes_state_eq powf ⟨sr, ct, an, ps, sd⟩ ⟨sr, ct, [], ps, sd⟩ rfl rfl]
  · intro n hn
    obtain ⟨j, f, hg, hf, he⟩ := (mem_chordNotes powf s frets 0 n).mp hn
    exact ⟨j, f, hg, hf, by simpa using he⟩
  · intro j f hg hf
    refine (mem_chordNotes powf s frets 0 _).mpr ⟨j, f, hg, hf, ?_⟩
    simp
  · exact chordNotes_length powf s frets 0
  · show chordNotes powf s 0 [0, -1, -1, -1, -1, -1] = [makeNote powf s 0 0]
    norm_num [chordNotes]

/-- Witness for C4: the position-0 note of a one-position chord over `ℚ`. -/
theorem claim4_witness :
    makeNote (fun _ _ => (0 : ℚ)) (new 44100) 0 0
      ∈ (play_chord (fun _ _ => (0 : ℚ)) (new 44100) [0]).active_notes :=
  (claim4_play_chord (fun _ _ => (0 : ℚ)) (new 44100) [0]).2.2.1 0 0 rfl
    (by norm_num)

/-- C5: `play_note` with an out-of-range string index or a negative fret never
fails: it computes frequency 0 and inserts a degenerate note; any note on that
string in the collection, now or after any number of rendered samples, has
frequency 0 and phase 0 and contributes exactly zero to every sample
(given `sin 0 = 0`). -/
theorem claim5_degenerate_note (powf : K → K → K) (sinK : K → K) (piK : K)
    (s : GuitarSynthesizer K) (si : ℕ) (fret : ℤ)
    (hdeg : 6 ≤ si ∨ fret < 0) (hsin : sinK 0 = 0) :
    (makeNote powf s si fret).frequency = 0 ∧
    ∀ (k : ℕ),
      ∀ n ∈ (process sinK piK (play_note powf s si fret) k).2.active_notes,
        n.string_index = si →
          n.frequency = 0 ∧ n.phase = 0 ∧
          ∀ ct : K, noteContribution sinK piK ct n = 0 := by
  have hfreq : (makeNote powf s si fret).frequency = 0 := by
    simpa [makeNote] using calculate_frequency_degenerate powf si fret hdeg
  refine ⟨hfreq, ?_⟩
  intro k n hn hsi
  have hbase : ∀ m ∈ (play_note powf s si fret).active_notes,
      m.string_index = si → m.frequency = 0 ∧ m.phase = 0 := by
    intro m hm hmsi
    unfold play_note at hm
    rcases List.mem_append.mp hm with h | h
    · have := (List.mem_filter.mp h).2
      simp at this
      exact absurd hmsi this
    · obtain rfl := List.mem_singleton.mp h
      exact ⟨hfreq, rfl⟩
  have hs := process_preserves_silent sinK piK si k _ hbase n hn hsi
  exact ⟨hs.1, hs.2, fun ct => noteContribution_silent sinK piK ct n hs.2 hsin⟩

/-- Witness for C5: string index 6 over `ℚ`. -/
theorem claim5_witness :
    (makeNote (fun _ _ => (0 : ℚ)) (new 44100) 6 0).frequency = 0 :=
  (claim5_degenerate_note (fun _ _ => (0 : ℚ)) (fun _ => 0) 0 (new 44100) 6 0
    (Or.inl (by norm_num)) rfl).1

/-- C7: a note surviving `k` rendered samples keeps its string index and
frequency and its amplitude is its amplitude before rendering times
`string_damping ^ k` (exactly, in the field model). -/
theorem claim7_amplitude_decay (sinK : K → K) (piK : K)
    (s : GuitarSynthesizer K) (k : ℕ) :
    ∀ n' ∈ (process sinK piK s k).2.active_notes,
      ∃ n ∈ s.active_notes,
        n'.string_index = n.string_index ∧
        n'.frequency = n.frequency ∧
        n'.amplitude = n.amplitude * s.string_damping ^ k := by
  induction k generalizing s with
  | zero =>
      intro n' hn'
      exact ⟨n', hn', rfl, rfl, by rw [pow_zero, mul_one]⟩
  | succ m ih =>
      intro n' hn'
      rw [process_snd_succ] at hn'
      obtain ⟨n₁, hn₁, hidx, hfreq, hamp⟩ := ih _ n' hn'
      rw [processSample_active] at hn₁
      obtain ⟨n₀, hn₀, rfl⟩ := List.mem_map.mp hn₁
      refine ⟨n₀, (mem_liveFilter hn₀).1, hidx, hfreq, ?_⟩
      have h2 : n'.amplitude
          = n₀.amplitude * s.string_damping * s.string_damping ^ m := hamp
      rw [h2, pow_succ]
      ring

/-- Witness for C7: a one-note synthesizer over `ℚ`. -/
theorem claim7_witness :
    ∃ n ∈ (GuitarSynthesizer.mk (1 : ℚ) 0
        [GuitarNote.mk 1 1 0 1 1 0 3 [] 0] 1 1).active_notes,
      (0 : ℕ) = n.string_index ∧ (1 : ℚ) = n.frequency ∧
      (1 : ℚ) = n.amplitude * (1 : ℚ) ^ 0 :=
  claim7_amplitude_decay (fun _ => 0) 0
    (GuitarSynthesizer.mk (1 : ℚ) 0 [GuitarNote.mk 1 1 0 1 1 0 3 [] 0] 1 1) 0
    (GuitarNote.mk 1 1 0 1 1 0 3 [] 0)
    (List.mem_singleton.mpr rfl)

/-- C8: for string index in `[0,5]` and fret in `[0,24]`, the note created by
a trigger has frequency `open_freq[string_index] * 2^(fret/12)` with the six
standard open-string frequencies; with `2^(12/12) = 2`, string 0 at fret 12
gives 164.82 Hz within ±0.01. -/
theorem claim8_frequency (powf : K → K → K) (s : GuitarSynthesizer K)
    (si : ℕ) (fret : ℤ) (hsi : si ≤ 5) (h0 : 0 ≤ fret) (_h24 : fret ≤ 24) :
    (∀ n ∈ (play_note powf s si fret).active_notes, n.string_index = si →
      n.frequency
        = ([82.41, 110.00, 146.83, 196.00, 246.94, 329.63] : List K).getD si 0
            * powf 2 ((fret : K) / 12)) ∧
    (powf 2 1 = 2 → |calculate_frequency powf 0 12 - 164.82| ≤ (0.01 : K)) := by
  constructor
  · intro n hn hidx
    unfold play_note at hn
    rcases List.mem_append.mp hn with h | h
    · have := (List.mem_filter.mp h).2
      simp at this
      exact absurd hidx this
    · obtain rfl := List.mem_singleton.mp h
      show calculate_frequency powf si fret = _
      have hguard : ¬ (6 ≤ si ∨ fret < 0) := by
        push_neg
        exact ⟨by omega, h0⟩
      unfold calculate_frequency
      rw [if_neg hguard]
      rfl
  · intro hp
    unfold calculate_frequency
    rw [if_neg (by norm_num)]
    have h12 : ((12 : ℤ) : K) / 12 = 1 := by norm_num
    rw [h12, hp]
    show |(OPEN_STRING_FREQUENCIES K).getD 0 0 * 2 - 164.82| ≤ (0.01 : K)
    have hv : (OPEN_STRING_FREQUENCIES K).getD 0 0 * 2 - 164.82 = 0 := by
      norm_num [OPEN_STRING_FREQUENCIES]
    rw [hv, abs_zero]
    norm_num

/-- Witness for C8: string 0, fret 12, `powf` returning 2, over `ℚ`. -/
theorem claim8_witness :
    |calculate_frequency (fun _ _ => (2 : ℚ)) 0 12 - 164.82| ≤ (0.01 : ℚ) :=
  (claim8_frequency (fun _ _ => (2 : ℚ)) (new 44100) 0 12 (by norm_num)
    (by norm_num) (by norm_num)).2 rfl

/-- C10: a freshly triggered note has phase 0, and as long as every note's
frequency is non-negative and at most the sample rate, the phase of every
active note stays in `[0,1]` across any number of rendered samples — the
single conditional subtraction of 1.0 suffices. -/
theorem claim10_phase_invariant (powf : K → K → K) (sinK : K → K) (piK : K)
    (s : GuitarSynthesizer K) (si : ℕ) (fret : ℤ)
    (hsr : 0 < s.sample_rate)
    (hnotes : ∀ n ∈ s.active_notes,
      0 ≤ n.phase ∧ n.phase ≤ 1 ∧ 0 ≤ n.frequency ∧
        n.frequency ≤ s.sample_rate) :
    (makeNote powf s si fret).phase = 0 ∧
    ∀ (k : ℕ), ∀ n ∈ (process sinK piK s k).2.active_notes,
      0 ≤ n.phase ∧ n.phase ≤ 1 := by
  refine ⟨rfl, ?_⟩
  suffices h : ∀ (k : ℕ) (s₀ : GuitarSynthesizer K), 0 < s₀.sample_rate →
      (∀ n ∈ s₀.active_notes,
        0 ≤ n.phase ∧ n.phase ≤ 1 ∧ 0 ≤ n.frequency ∧
          n.frequency ≤ s₀.sample_rate) →
      ∀ n ∈ (process sinK piK s₀ k).2.active_notes,
        0 ≤ n.phase ∧ n.phase ≤ 1 ∧ 0 ≤ n.frequency ∧
          n.frequency ≤ s₀.sample_rate by
    intro k n hn
    obtain ⟨h1, h2, _, _⟩ := h k s hsr hnotes n hn
    exact ⟨h1, h2⟩
  intro k
  induction k with
  | zero => intro s₀ hsr₀ hinv n hn; exact hinv n hn
  | succ m ih =>
      intro s₀ hsr₀ hinv n hn
      rw [process_snd_succ] at hn
      have hinv' : ∀ n ∈ (processSample sinK piK s₀).2.active_notes,
          0 ≤ n.phase ∧ n.phase ≤ 1 ∧ 0 ≤ n.frequency ∧
            n.frequency ≤ (processSample sinK piK s₀).2.sample_rate := by
        intro m' hm'
        rw [processSample_active] at hm'
        obtain ⟨m₀, hm₀, rfl⟩ := List.mem_map.mp hm'
        obtain ⟨hp0, hp1, hf0, hf1⟩ := hinv m₀ (mem_liveFilter hm₀).1
        have hb := updateNote_phase_bounds s₀.sample_rate s₀.string_damping m₀
          hsr₀ hp0 hp1 hf0 hf1
        exact ⟨hb.1, hb.2, hf0, hf1⟩
      exact ih (processSample sinK piK s₀).2 hsr₀ hinv' n hn

/-- Witness for C10: a zero-frequency note on a sample-rate-1 synthesizer
over `ℚ`. -/
theorem claim10_witness :
    (makeNote (fun _ _ => (0 : ℚ))
        (GuitarSynthesizer.mk (1 : ℚ) 0
          [GuitarNote.mk 0 1 0 1 1 0 3 [] 0] 1 1) 0 0).phase = 0 :=
  (claim10_phase_invariant (fun _ _ => (0 : ℚ)) (fun _ => 0) 0
    (GuitarSynthesizer.mk (1 : ℚ) 0 [GuitarNote.mk 0 1 0 1 1 0 3 [] 0] 1 1) 0 0
    (by norm_num)
    (by
      intro n hn
      rw [List.mem_singleton] at hn
      subst hn
      refine ⟨le_refl 0, ?_, le_refl 0, ?_⟩ <;> norm_num)).1

lemma noteContribution_eq_spec (sinK : K → K) (piK ct : K) (n : GuitarNote K)
    (hharm : n.harmonics = specWeights K) :
    noteContribution sinK piK ct n = specContribution sinK piK ct n := by
  have hr : List.range 6 = [0, 1, 2, 3, 4, 5] := rfl
  simp only [noteContribution, specContribution, hharm, hr, specWeights,
    harmonicsSum, List.foldr_cons, List.foldr_nil, List.getD, List.getElem?_cons_zero,
    List.getElem?_cons_succ, Option.getD_some]
  norm_num
  ring_nf

lemma sumContributions_eq_spec (sinK : K → K) (piK ct : K)
    (l : List (GuitarNote K))
    (h : ∀ n ∈ l, n.harmonics = specWeights K) :
    sumContributions sinK piK ct l = sumSpecContributions sinK piK ct l := by
  induction l with
  | nil => rfl
  | cons n rest ih =>
      have hn := h n (List.mem_cons_self n rest)
      have hrest := ih fun m hm => h m (List.mem_cons_of_mem n hm)
      unfold sumContributions sumSpecContributions at hrest ⊢
      rw [List.foldr_cons, List.foldr_cons, noteContribution_eq_spec sinK piK ct n hn,
        hrest]

/-- C1: each rendered sample equals the soft-clipped value of 0.3 times the
sum, over the active (non-expired) notes, of
`(sin(2π·phase)·amplitude + Σ over h=0..5 of sin(2π·phase·(h+2))·w_h·amplitude)
× envelope × amplitude`, with the fixed weights `w_h`; trigger-created notes
carry exactly those weights. -/
theorem claim1_sample_formula (powf : K → K → K) (sinK : K → K) (piK : K)
    (s : GuitarSynthesizer K) (si : ℕ) (fret : ℤ)
    (hh : ∀ n ∈ s.active_notes, n.harmonics = specWeights K) :
    (makeNote powf s si fret).harmonics = specWeights K ∧
    (processSample sinK piK s).1
      = soft_clip (sumSpecContributions sinK piK s.current_time
          (liveFilter s.current_time s.active_notes) * 0.3) := by
  refine ⟨rfl, ?_⟩
  rw [processSample_fst]
  rw [sumContributions_eq_spec sinK piK s.current_time _
    (fun n hn => hh n (mem_liveFilter hn).1)]

/-- Witness for C1: a one-note synthesizer over `ℚ` whose note carries the
fixed harmonic weights. -/
theorem claim1_witness :
    (makeNote (fun _ _ => (0 : ℚ))
        (GuitarSynthesizer.mk (1 : ℚ) 0
          [GuitarNote.mk 0 1 0 1 1 0 3 (specWeights ℚ) 0] 1 1) 0 0).harmonics
      = specWeights ℚ :=
  (claim1_sample_formula (fun _ _ => (0 : ℚ)) (fun _ => 0) 0
    (GuitarSynthesizer.mk (1 : ℚ) 0
      [GuitarNote.mk 0 1 0 1 1 0 3 (specWeights ℚ) 0] 1 1) 0 0
    (by
      intro n hn
      rw [List.mem_singleton] at hn
      subst hn
      rfl)).1

end GuitarSynth
